import Mathlib

/-!
Verification of the streamed-chat assembly logic of `src/components/ChatWindow.tsx`.

The file embeds, as pure Lean functions over `List Char` / `String`:
  * the reasoning deduplicator `cleanReasoningChain`,
  * the raw-line handling of the stream loop (trimming, the `data: [DONE]`
    sentinel test, and the `line.replace('data: ', '')` prefix stripping),
  * the per-turn stream state machine of the primary `handleSend`
    (message creation, content appending, finalization, error path),
  * the corresponding loop of the second `ChatWindow` variant contained in
    the same source file.

JavaScript strings are modelled as `List Char` (wrapped in `String` at the
interface).  `JSON.parse` is external to the repository; its outcome on a
line is modelled as data carried next to the raw line text: `none` stands
for a parse exception, `some e` for a successfully parsed payload, with the
optional `choices[0]`, `delta`, `reasoning_content`, `content` and
`finish_reason` fields represented by `Option` fields (a JSON `null` and an
absent field behave identically in the source, which only tests `!= null`
and truthiness).
-/

/-- Whitespace test matching the character classes relevant to the
JavaScript regular expression `\s` for the data appearing here. -/
def isWS (c : Char) : Bool :=
  c = ' ' || c = '\t' || c = '\n' || c = '\r' || c = '\x0b' || c = '\x0c'

/-- Collapse every maximal run of two or more copies of `c` into a single
copy, leaving every other character in place.  This is the effect of
`text.replace(/[c]{2,}/g, "c")` in the source (lines 20-22). -/
def squeeze (c : Char) : List Char → List Char
  | [] => []
  | [a] => [a]
  | a :: b :: r => if a = c ∧ b = c then squeeze c (b :: r) else a :: squeeze c (b :: r)

/-- Accumulating scanner behind `splitWS`: `cur` holds the characters of
the token currently being read, in reverse order. -/
def splitWSGo (cur : List Char) : List Char → List (List Char)
  | [] => if cur.isEmpty then [] else [cur.reverse]
  | c :: cs =>
    if isWS c then
      if cur.isEmpty then splitWSGo [] cs else cur.reverse :: splitWSGo [] cs
    else splitWSGo (c :: cur) cs

/-- Split a character list into its maximal runs of non-whitespace
characters.  This is `text.split(/\s+/)` followed by
`filter(t => t.trim() !== "")` in the source (lines 25-28): the empty
fragments that the JavaScript split produces at whitespace boundaries are
exactly the ones removed by the filter, so only the maximal non-whitespace
runs remain. -/
def splitWS (l : List Char) : List (List Char) := splitWSGo [] l

/-- Remove consecutive exact duplicates, keeping the first element of each
run.  This is the `newTokens` loop of the source (lines 31-38): a token is
skipped exactly when it equals the last token already added. -/
def dedupe {α : Type} [DecidableEq α] : List α → List α
  | [] => []
  | [a] => [a]
  | a :: b :: r => if a = b then dedupe (b :: r) else a :: dedupe (b :: r)

/-- Loop body of the fusion pass (source lines 43-59), with the output list
kept in reverse order in the accumulator.  For each incoming token `t` the
last placed token `last` is inspected: when `last.endsWith(t)` or
`t.endsWith(last)` holds (one is a string suffix of the other) the pair is
treated as one unit and the longer of the two is kept in place; otherwise
`t` is pushed as a new entry. -/
def fuseGo (acc : List (List Char)) : List (List Char) → List (List Char)
  | [] => acc.reverse
  | t :: ts =>
    match acc with
    | [] => fuseGo [t] ts
    | last :: rest =>
      if t.isSuffixOf last || last.isSuffixOf t then
        if t.length > last.length then fuseGo (t :: rest) ts else fuseGo (last :: rest) ts
      else fuseGo (t :: last :: rest) ts

/-- Fusion pass over a whole token list (source lines 43-59). -/
def fuse (ts : List (List Char)) : List (List Char) := fuseGo [] ts

/-- Join a token list with single spaces; this is `tokens.join(" ")`
(source line 61). -/
def joinSp : List (List Char) → List Char
  | [] => []
  | [t] => t
  | t :: t2 :: ts => t ++ ' ' :: joinSp (t2 :: ts)

/-- Character-list core of `cleanReasoningChain` (source lines 19-62):
collapse runs of dots, then runs of question marks, split on whitespace,
drop consecutive duplicates, fuse suffix-overlapping neighbours, and join
with single spaces. -/
def cleanL (l : List Char) : List Char :=
  joinSp (fuse (dedupe (splitWS (squeeze '?' (squeeze '.' l)))))

/-- The reasoning deduplicator `cleanReasoningChain` of the source
(lines 19-62), as a function on `String`. -/
def cleanReasoningChain (s : String) : String := String.mk (cleanL s.data)

/-! ## Raw line handling -/

/-- JavaScript `String.prototype.trim`: drop whitespace from both ends. -/
def jsTrim (l : List Char) : List Char :=
  ((l.dropWhile isWS).reverse.dropWhile isWS).reverse

/-- The terminal sentinel text compared against on source lines 182 and 339. -/
def sentinelData : List Char := "data: [DONE]".data

/-- Test performed on each decoded line before any parsing:
`line.trim() === 'data: [DONE]'` (source lines 182 and 339). -/
def isDoneLine (l : List Char) : Bool := jsTrim l == sentinelData

/-- JavaScript `String.prototype.replace` with a plain-string pattern:
replace the first occurrence of `pat` (anywhere in the string, not only as
a leading segment) by `repl`; if `pat` does not occur, return the string
unchanged. -/
def replaceFirst (pat repl : List Char) : List Char → List Char
  | [] => if pat.isPrefixOf [] then repl else []
  | c :: cs =>
    if pat.isPrefixOf (c :: cs) then repl ++ (c :: cs).drop pat.length
    else c :: replaceFirst pat repl cs

/-- The pattern removed before JSON parsing on source lines 187 and 345. -/
def dataPat : List Char := "data: ".data

/-- The stripping step `line.replace('data: ', '')` applied to a line
before it is handed to `JSON.parse` (source lines 187 and 345). -/
def stripData (l : List Char) : List Char := replaceFirst dataPat [] l

/-! ## Event payload model

The outcome of `JSON.parse` on a stripped line, restricted to the fields
the source reads.  An absent field and a `null` field are identified,
matching the `!= null` and optional-chaining tests in the source. -/

/-- The `delta` object of `choices[0]`. -/
structure Delta where
  reasoning_content : Option String
  content : Option String
deriving DecidableEq, Repr

/-- One element of the `choices` array.  The `finish_reason` field is kept
only up to truthiness, which is all the source tests (line 192). -/
structure Choice where
  delta : Option Delta
  finish_reason : Bool
deriving DecidableEq, Repr

/-- A successfully parsed payload: the optional `choices` array. -/
structure EventJson where
  choices : Option (List Choice)
deriving DecidableEq, Repr

/-- One decoded stream line: its raw text, paired with the outcome of
`JSON.parse` on its stripped form (`none` models a parse exception). -/
abbrev SItem : Type := List Char × Option EventJson

/-! ## Conversation data model -/

/-- The `Message` record of the source (lines 6-12).  The user message is
created with only `content` and `isUser` set, so the remaining fields are
optional exactly as in the TypeScript type. -/
structure Message where
  content : String
  isUser : Bool
  reasoning : Option String
  isComplete : Option Bool
  showReasoning : Option Bool
deriving DecidableEq, Repr

/-- Per-turn state of the primary `handleSend` (lines 64-146): the message
list and loading flag (React state) together with the three refs
`answerMessageIndexRef`, `alreadyCreatedRef` and `reasoningAccumulatorRef`. -/
structure TurnState where
  messages : List Message
  answerIdx : Int
  alreadyCreated : Bool
  reasoningAcc : String
  isLoading : Bool
deriving DecidableEq, Repr

/-- The user message pushed at the start of a turn (source line 141). -/
def userMsg (prompt : String) : Message :=
  { content := prompt, isUser := true, reasoning := none,
    isComplete := none, showReasoning := none }

/-- State at the start of a turn, after the user message is pushed and the
refs are reset (source lines 141-146). -/
def initTurn (msgs : List Message) (prompt : String) : TurnState :=
  { messages := msgs ++ [userMsg prompt], answerIdx := -1,
    alreadyCreated := false, reasoningAcc := "", isLoading := true }

/-- `appendContentToFinalMessage` (source lines 88-98): when the recorded
index designates an existing message, extend its `content` by the chunk;
otherwise leave the list unchanged.  The `oldContent || ''` of the source
is the identity on strings. -/
def appendContentToFinalMessage (chunk : String) (s : TurnState) : TurnState :=
  if 0 ≤ s.answerIdx then
    match s.messages.get? s.answerIdx.toNat with
    | some m =>
      let m2 : Message := { m with content := m.content ++ chunk }
      { s with messages := s.messages.set s.answerIdx.toNat m2 }
    | none => s
  else s

/-- The record pushed by `createFinalMessage` (source lines 106-112). -/
def ansEmpty : Message :=
  { content := "", isUser := false, reasoning := some "",
    isComplete := some false, showReasoning := some true }

/-- `createFinalMessage` (source lines 103-116): push the empty answer
message and record its index. -/
def createFinalMessage (s : TurnState) : TurnState :=
  { s with
    messages := s.messages ++ [ansEmpty],
    answerIdx := Int.ofNat s.messages.length }

/-- `finalizeMessage` (source lines 121-135): clean the accumulated
reasoning, store it on the indexed message while marking it complete (when
the index designates an existing message), and clear the accumulator. -/
def finalizeMessage (s : TurnState) : TurnState :=
  let dedup := cleanReasoningChain s.reasoningAcc
  let s2 :=
    if 0 ≤ s.answerIdx then
      match s.messages.get? s.answerIdx.toNat with
      | some m =>
        let m2 : Message := { m with isComplete := some true, reasoning := some dedup }
        { s with messages := s.messages.set s.answerIdx.toNat m2 }
      | none => s
    else s
  { s2 with reasoningAcc := "" }

/-- Effect of one `delta` object (source lines 196-212): append any
non-null `reasoning_content` to the accumulator; on a non-null `content`,
create the answer message first if it does not exist yet, then append the
content chunk to it. -/
def applyDelta (s : TurnState) (d : Delta) : TurnState :=
  let s1 :=
    match d.reasoning_content with
    | some r => { s with reasoningAcc := s.reasoningAcc ++ r }
    | none => s
  match d.content with
  | some c =>
    let s2 :=
      if s1.alreadyCreated then s1
      else { createFinalMessage s1 with alreadyCreated := true }
    appendContentToFinalMessage c s2
  | none => s1

/-- Effect of one successfully parsed payload (source lines 188-212):
skip when `choices[0]` is absent, record a truthy `finish_reason`, skip
when `delta` is absent, otherwise apply the delta. -/
def applyParsed (s : TurnState) (fin : Bool) (j : EventJson) : TurnState × Bool :=
  match j.choices.bind List.head? with
  | none => (s, fin)
  | some ch =>
    let fin2 := fin || ch.finish_reason
    match ch.delta with
    | none => (s, fin2)
    | some d => (applyDelta s d, fin2)

/-- Effect of one non-sentinel line (source lines 186-215): a parse
exception is caught and the line skipped; otherwise the parsed payload is
applied. -/
def lineStep (s : TurnState) (fin : Bool) (it : SItem) : TurnState × Bool :=
  match it.2 with
  | none => (s, fin)
  | some j => applyParsed s fin j

/-- The `for (const line of lines)` loop over one chunk (source lines
181-216): a line trimming to the sentinel sets `finished` and breaks out
immediately (the remaining lines of the chunk are not processed); every
other line goes through `lineStep`. -/
def processLines (s : TurnState) (fin : Bool) : List SItem → TurnState × Bool
  | [] => (s, fin)
  | it :: rest =>
    if isDoneLine it.1 then (s, true)
    else
      let r := lineStep s fin it
      processLines r.1 r.2 rest

/-- The `while (true)` reader loop (source lines 174-218): chunks are
processed in order; after each chunk, a set `finished` flag stops the
loop, and an exhausted reader stops it as well. -/
def runStream : TurnState → List (List SItem) → TurnState
  | s, [] => s
  | s, chunk :: rest =>
    let r := processLines s false chunk
    if r.2 then r.1 else runStream r.1 rest

/-- A successfully transported turn (source lines 137-235 without the catch
path): push the user message, reset the refs, consume the stream, finalize,
and clear the loading flag. -/
def handleSendOk (msgs : List Message) (prompt : String)
    (chunks : List (List SItem)) : TurnState :=
  let s := runStream (initTurn msgs prompt) chunks
  { finalizeMessage s with isLoading := false }

/-- Error-message text pushed by the catch block (source line 228). -/
def errorLead : String := "Error: "

/-- The message pushed by the catch block (source lines 225-231). -/
def errMsg (e : String) : Message :=
  { content := errorLead ++ e, isUser := false, reasoning := none,
    isComplete := none, showReasoning := none }

/-- A turn whose transport fails after `chunks` have been consumed: the
rejected request and the non-2xx status correspond to `chunks = []`, a
stream read that throws to a nonempty prefix.  The catch block (source
lines 223-231) appends the error message without finalizing, and the
finally block (lines 232-234) clears the loading flag. -/
def handleSendFail (msgs : List Message) (prompt : String)
    (chunks : List (List SItem)) (e : String) : TurnState :=
  let s := runStream (initTurn msgs prompt) chunks
  { s with messages := s.messages ++ [errMsg e], isLoading := false }

/-! ## Second variant of `ChatWindow`

The source file contains a second version of the component.  Its loop
(second variant, lines 331-382 of the combined file) differs from the
primary one: a sentinel line is skipped with `continue` instead of
breaking, there is no `finish_reason` handling, the answer message is
created with the reasoning captured at creation time, and the final
update (lines 385-410) reads `currentReasoning` and `currentResponse`
from the closure of the running `handleSend`, whose values are the ones
of the render in which the handler was created.  Those captured values
are passed as the explicit parameters `capRe` and `capResp`; the
functional state updates `setX(prev => ...)` are applied directly. -/

/-- Per-turn state of the second variant: the message list together with
the `currentReasoning` and `currentResponse` state (as maintained by the
functional updates) and the loop locals `reasoningComplete` and
`reasoningMessageIndex`. -/
structure V2State where
  messages : List Message
  currRe : String
  currResp : String
  reasoningComplete : Bool
  reasoningMessageIndex : Int
deriving DecidableEq, Repr

/-- Turn start of the second variant (lines 299-302): push the user
message and clear the partial-reasoning and partial-response state. -/
def v2Init (msgs : List Message) (prompt : String) : V2State :=
  { messages := msgs ++ [userMsg prompt], currRe := "", currResp := "",
    reasoningComplete := false, reasoningMessageIndex := -1 }

/-- The record pushed by the second variant when the first content delta
arrives (lines 360-369), with `capRe` the closure-captured reasoning. -/
def v2AnsMsg (capRe : String) : Message :=
  { content := "", isUser := false, reasoning := some capRe,
    isComplete := some false, showReasoning := some true }

/-- The record pushed by the final update of the second variant when no
content delta ever arrived (lines 402-407), with `capResp` the
closure-captured response. -/
def v2NoAnswerMsg (capResp : String) : Message :=
  { content := capResp, isUser := false, reasoning := none,
    isComplete := some true, showReasoning := some false }

/-- One line of the second variant loop (lines 338-381): a sentinel line
is skipped without parsing and without ending the loop; a parse exception
skips the line; otherwise a non-null `reasoning_content` extends the
partial reasoning, and a non-null `content` first materializes the answer
message (storing the closure-captured reasoning `capRe` and clearing the
partial reasoning) and then extends the partial response. -/
def v2ProcessLine (capRe : String) (s : V2State) (it : SItem) : V2State :=
  if isDoneLine it.1 then s
  else
    match it.2 with
    | none => s
    | some j =>
      match (j.choices.bind List.head?).bind Choice.delta with
      | none => s
      | some d =>
        let s1 :=
          match d.reasoning_content with
          | some r => { s with currRe := s.currRe ++ r }
          | none => s
        match d.content with
        | none => s1
        | some c =>
          let s2 :=
            if s1.reasoningComplete then s1
            else
              { s1 with
                reasoningComplete := true,
                messages := s1.messages ++ [v2AnsMsg capRe],
                reasoningMessageIndex := Int.ofNat s1.messages.length,
                currRe := "" }
          { s2 with currResp := s2.currResp ++ c }

/-- The whole line sequence of a second-variant turn.  The loop has no
break, so the lines of all chunks are processed uniformly in order. -/
def v2ProcessLines (capRe : String) : V2State → List SItem → V2State
  | s, [] => s
  | s, it :: rest => v2ProcessLines capRe (v2ProcessLine capRe s it) rest

/-- Final update of the second variant (lines 385-413), with `capRe` and
`capResp` the closure-captured `currentReasoning` and `currentResponse`.
When an answer message was created, it is completed, keeping its stored
content and reasoning whenever the captured value is the empty string;
otherwise a completed message with the captured response as content and
no reasoning shown is pushed. -/
def v2Finalize (capRe capResp : String) (s : V2State) : V2State :=
  let s2 :=
    if 0 ≤ s.reasoningMessageIndex then
      match s.messages.get? s.reasoningMessageIndex.toNat with
      | some m =>
        let m2 : Message :=
          { m with
            content := if capResp = "" then m.content else capResp,
            isComplete := some true,
            showReasoning := some true,
            reasoning := if capRe = "" then m.reasoning else some capRe }
        { s with messages := s.messages.set s.reasoningMessageIndex.toNat m2 }
      | none => s
    else
      { s with messages := s.messages ++ [v2NoAnswerMsg capResp] }
  { s2 with currResp := "" }

/-- A successfully transported turn of the second variant. -/
def v2Run (capRe capResp : String) (msgs : List Message) (prompt : String)
    (items : List SItem) : V2State :=
  v2Finalize capRe capResp (v2ProcessLines capRe (v2Init msgs prompt) items)

/-! ## Stream line builders used in the stated properties -/

/-- Raw text of an ordinary (non-sentinel) event line. -/
def plainRaw : List Char := "x".data

/-- A line carrying only a reasoning delta. -/
def rItem (r : String) : SItem :=
  (plainRaw, some ⟨some [⟨some ⟨some r, none⟩, false⟩]⟩)

/-- A line carrying only a content delta. -/
def cItem (c : String) : SItem :=
  (plainRaw, some ⟨some [⟨some ⟨none, some c⟩, false⟩]⟩)

/-- A line carrying a truthy `finish_reason` and no delta. -/
def finItem : SItem := (plainRaw, some ⟨some [⟨none, true⟩]⟩)

/-- The sentinel line; its parse component is irrelevant and set to the
exception outcome (the sentinel text is not valid JSON). -/
def doneItem : SItem := (sentinelData, none)

/-- Concatenation of a list of delta strings in arrival order. -/
def strConcat : List String → String
  | [] => ""
  | x :: xs => x ++ strConcat xs

/-! ## Inputs used in the concrete statements -/

/-- The spec example input for the fusion step. -/
def srcIn : String := "resolu resolução"

/-- The output the spec and the source comment claim for `srcIn`. -/
def srcLonger : String := "resolução"

/-- An input whose first token really is a suffix of the second. -/
def srcSuf : String := "ução resolução"

/-- A line text containing two occurrences of the stripped pattern. -/
def dblOccur : List Char := "data: data: hi".data

/-- Result of stripping `dblOccur`: only the first occurrence is removed. -/
def dblOccurOut : List Char := "data: hi".data

/-- A line text whose pattern occurrence is not at the start. -/
def midOccur : List Char := "x data: y".data

/-- Result of stripping `midOccur`: the mid-line occurrence is removed. -/
def midOccurOut : List Char := "x y".data

/-! ## Lemmas: raw line handling -/

theorem replaceFirst_no_occur (pat repl : List Char) :
    ∀ l : List Char, ¬ pat <:+: l → replaceFirst pat repl l = l := by
  intro l
  induction l with
  | nil =>
    intro h
    have hp : pat.isPrefixOf ([] : List Char) = false := by
      cases hq : pat.isPrefixOf ([] : List Char)
      · rfl
      · exfalso
        exact h ( List.isPrefixOf_iff_prefix.mp hq).isInfix
    simp [replaceFirst, hp]
  | cons c cs ih =>
    intro h
    rw [replaceFirst]
    split
    · next hp =>
      exact absurd ( List.isPrefixOf_iff_prefix.mp hp).isInfix h
    · next hp =>
      rw [ih (fun hc => h (List.infix_cons hc))]

/-! ## Lemmas: variant 1 stream loop -/

theorem plainRaw_not_done : isDoneLine plainRaw = false := by decide

theorem sentinel_done : isDoneLine sentinelData = true := by decide

/-- A line that trims to the sentinel returns immediately with the
`finished` flag set; neither its parse outcome nor the rest of the chunk
appears in the result. -/
theorem processLines_done (s : TurnState) (fin : Bool) (d : SItem) (post : List SItem)
    (hd : isDoneLine d.1 = true) : processLines s fin (d :: post) = (s, true) := by
  simp [processLines, hd]

/-- Processing a chunk whose lines before the sentinel are ordinary stops
at the sentinel with the state reached on the earlier lines. -/
theorem processLines_chunk_done (d : SItem) (hd : isDoneLine d.1 = true) :
    ∀ (pre : List SItem), (∀ x ∈ pre, isDoneLine x.1 = false) →
    ∀ (s : TurnState) (fin : Bool) (post : List SItem),
      processLines s fin (pre ++ d :: post) = ((processLines s fin pre).1, true) := by
  intro pre
  induction pre with
  | nil =>
    intro _ s fin post
    exact processLines_done s fin d post hd
  | cons it pre ih =>
    intro hpre s fin post
    have hit : isDoneLine it.1 = false := hpre it (by simp)
    have hrest : ∀ x ∈ pre, isDoneLine x.1 = false := fun x hx => hpre x (by simp [hx])
    simp only [List.cons_append, processLines, hit, Bool.false_eq_true, if_false]
    exact ih hrest _ _ post

/-- Once a chunk contains a sentinel line, the later chunks of the stream
are never consumed. -/
theorem runStream_done (d : SItem) (hd : isDoneLine d.1 = true)
    (pre : List SItem) (hpre : ∀ x ∈ pre, isDoneLine x.1 = false)
    (s : TurnState) (post : List SItem) (rest : List (List SItem)) :
    runStream s ((pre ++ d :: post) :: rest) = (processLines s false pre).1 := by
  simp [runStream, processLines_chunk_done d hd pre hpre s false post]

/-- A line whose parse throws is skipped: the whole processing result is
the one of the same chunk without that line. -/
theorem processLines_malformed (m : SItem) (hd : isDoneLine m.1 = false)
    (hm : m.2 = none) :
    ∀ (pre : List SItem) (s : TurnState) (fin : Bool) (post : List SItem),
      processLines s fin (pre ++ m :: post) = processLines s fin (pre ++ post) := by
  intro pre
  induction pre with
  | nil =>
    intro s fin post
    simp [processLines, hd, lineStep, hm]
  | cons it pre ih =>
    intro s fin post
    simp only [List.cons_append, processLines]
    split
    · rfl
    · exact ih _ _ post

/-! ## Lemmas: single line effects -/

theorem rItem_fst (r : String) : (rItem r).1 = plainRaw := rfl

theorem cItem_fst (c : String) : (cItem c).1 = plainRaw := rfl

theorem processLines_cons_plain (s : TurnState) (fin : Bool) (it : SItem)
    (rest : List SItem) (h : isDoneLine it.1 = false) :
    processLines s fin (it :: rest) =
      processLines (lineStep s fin it).1 (lineStep s fin it).2 rest := by
  simp [processLines, h]

theorem lineStep_rItem (s : TurnState) (fin : Bool) (r : String) :
    lineStep s fin (rItem r) =
      ({ s with reasoningAcc := s.reasoningAcc ++ r }, fin) := by
  simp [lineStep, rItem, applyParsed, applyDelta]

theorem lineStep_cItem_created (s : TurnState) (fin : Bool) (c : String)
    (h : s.alreadyCreated = true) :
    lineStep s fin (cItem c) = (appendContentToFinalMessage c s, fin) := by
  simp [lineStep, cItem, applyParsed, applyDelta, h]

theorem lineStep_cItem_new (s : TurnState) (fin : Bool) (c : String)
    (h : s.alreadyCreated = false) :
    lineStep s fin (cItem c) =
      (appendContentToFinalMessage c
        { createFinalMessage s with alreadyCreated := true }, fin) := by
  simp [lineStep, cItem, applyParsed, applyDelta, h]

theorem lineStep_finItem (s : TurnState) (fin : Bool) :
    lineStep s fin finItem = (s, true) := by
  simp [lineStep, finItem, applyParsed]

theorem appendContent_at (base : List Message) (m : Message) (s : TurnState)
    (c : String) (hm : s.messages = base ++ [m])
    (hi : s.answerIdx = Int.ofNat base.length) :
    appendContentToFinalMessage c s =
      { s with messages := base ++ [{ m with content := m.content ++ c }] } := by
  unfold appendContentToFinalMessage
  rw [hm, hi]
  simp

theorem finalize_at (base : List Message) (m : Message) (s : TurnState)
    (hm : s.messages = base ++ [m])
    (hi : s.answerIdx = Int.ofNat base.length) :
    finalizeMessage s =
      { s with
        messages := base ++ [{ m with isComplete := some true, reasoning := some (cleanReasoningChain s.reasoningAcc) }],
        reasoningAcc := "" } := by
  unfold finalizeMessage
  rw [hm, hi]
  simp

theorem finalize_noAnswer (s : TurnState) (hi : s.answerIdx = -1) :
    finalizeMessage s = { s with reasoningAcc := "" } := by
  simp [finalizeMessage, hi]

/-! ## Lemmas: accumulation over runs of lines -/

theorem processLines_rItems :
    ∀ (rs : List String) (s : TurnState) (fin : Bool) (t : List SItem),
      processLines s fin (rs.map rItem ++ t) =
        processLines { s with reasoningAcc := s.reasoningAcc ++ strConcat rs } fin t
  | [], s, fin, t => by simp [strConcat]
  | r :: rs, s, fin, t => by
    rw [List.map_cons, List.cons_append,
      processLines_cons_plain _ _ _ _ (by rw [rItem_fst]; exact plainRaw_not_done),
      lineStep_rItem]
    rw [processLines_rItems rs _ fin t]
    simp [strConcat, String.append_assoc, strConcat]

theorem processLines_cItems :
    ∀ (cs : List String) (base : List Message) (m : Message) (s : TurnState)
      (fin : Bool) (t : List SItem),
      s.messages = base ++ [m] → s.answerIdx = Int.ofNat base.length →
      s.alreadyCreated = true →
      processLines s fin (cs.map cItem ++ t) =
        processLines
          { s with messages := base ++ [{ m with content := m.content ++ strConcat cs }] }
          fin t
  | [], base, m, s, fin, t, hm, _, _ => by
    simp [strConcat, ← hm]
  | c :: cs, base, m, s, fin, t, hm, hi, hc => by
    rw [List.map_cons, List.cons_append,
      processLines_cons_plain _ _ _ _ (by rw [cItem_fst]; exact plainRaw_not_done),
      lineStep_cItem_created _ _ _ hc, appendContent_at base m s c hm hi]
    rw [processLines_cItems cs base { m with content := m.content ++ c } _ fin t
      (by simp) (by simp [hi]) (by simp [hc])]
    simp [strConcat, String.append_assoc]

/-! ## Lemmas: the one-open-answer invariant -/

/-- Invariant maintained by the variant 1 loop during one turn over the
base list `base` (the conversation as of the pushed user message): before
the answer message is created the conversation is exactly `base`, and once
it is created the turn has added exactly one message, a non-user
incomplete one, sitting at the recorded index `base.length`. -/
def TurnInv (base : List Message) (s : TurnState) : Prop :=
  (s.alreadyCreated = false → s.messages = base ∧ s.answerIdx = -1) ∧
  (s.alreadyCreated = true →
    ∃ m : Message, s.messages = base ++ [m] ∧ m.isUser = false ∧
      m.isComplete = some false ∧ s.answerIdx = Int.ofNat base.length)

theorem turnInv_init (msgs : List Message) (prompt : String) :
    TurnInv (msgs ++ [userMsg prompt]) (initTurn msgs prompt) := by
  constructor
  · intro _
    exact ⟨rfl, rfl⟩
  · intro h
    simp [initTurn] at h

theorem turnInv_fields (base : List Message) (s s1 : TurnState) (h : TurnInv base s)
    (h1 : s1.messages = s.messages) (h2 : s1.answerIdx = s.answerIdx)
    (h3 : s1.alreadyCreated = s.alreadyCreated) : TurnInv base s1 := by
  constructor
  · intro hf
    rw [h1, h2]
    exact h.1 (h3 ▸ hf)
  · intro ht
    obtain ⟨m, hm⟩ := h.2 (h3 ▸ ht)
    exact ⟨m, h1 ▸ h2 ▸ hm⟩

theorem turnInv_contentStep (base : List Message) (s1 : TurnState) (c : String)
    (h : TurnInv base s1) :
    TurnInv base
      (appendContentToFinalMessage c
        (if s1.alreadyCreated then s1
         else { createFinalMessage s1 with alreadyCreated := true })) := by
  cases hb : s1.alreadyCreated
  · simp only [hb, Bool.false_eq_true, if_false]
    obtain ⟨hm, _⟩ := h.1 hb
    have hcr : ({ createFinalMessage s1 with alreadyCreated := true } : TurnState).messages
        = base ++ [ansEmpty] := by
      simp [createFinalMessage, hm]
    have hcri : ({ createFinalMessage s1 with alreadyCreated := true } : TurnState).answerIdx
        = Int.ofNat base.length := by
      simp [createFinalMessage, hm]
    rw [appendContent_at base ansEmpty _ c hcr hcri]
    constructor
    · intro hx
      simp at hx
    · intro _
      exact ⟨{ ansEmpty with content := ansEmpty.content ++ c }, by simp, by simp [ansEmpty],
        by simp [ansEmpty], by simp [createFinalMessage, hm]⟩
  · simp only [hb, if_true]
    obtain ⟨m, hm, hu, hcm, hix⟩ := h.2 hb
    rw [appendContent_at base m s1 c hm hix]
    constructor
    · intro hf
      simp at hf
      exact absurd hb (by simp [hf])
    · intro _
      exact ⟨{ m with content := m.content ++ c }, by simp, by simp [hu], by simp [hcm],
        by simp [hix]⟩

theorem turnInv_applyDelta (base : List Message) (s : TurnState) (d : Delta)
    (h : TurnInv base s) : TurnInv base (applyDelta s d) := by
  unfold applyDelta
  cases hrc : d.reasoning_content with
  | none =>
    cases hdc : d.content with
    | none => exact h
    | some c => exact turnInv_contentStep base s c h
  | some r =>
    have h1 : TurnInv base { s with reasoningAcc := s.reasoningAcc ++ r } :=
      turnInv_fields base s _ h rfl rfl rfl
    cases hdc : d.content with
    | none => exact h1
    | some c => exact turnInv_contentStep base _ c h1

theorem turnInv_lineStep (base : List Message) (s : TurnState) (fin : Bool)
    (it : SItem) (h : TurnInv base s) : TurnInv base (lineStep s fin it).1 := by
  cases h2 : it.2 with
  | none => simpa [lineStep, h2] using h
  | some j =>
    cases h3 : j.choices.bind List.head? with
    | none => simpa [lineStep, h2, applyParsed, h3] using h
    | some ch =>
      cases h4 : ch.delta with
      | none => simpa [lineStep, h2, applyParsed, h3, h4] using h
      | some d =>
        simpa [lineStep, h2, applyParsed, h3, h4] using turnInv_applyDelta base s d h

theorem turnInv_processLines (base : List Message) :
    ∀ (items : List SItem) (s : TurnState) (fin : Bool), TurnInv base s →
      TurnInv base (processLines s fin items).1
  | [], s, fin, h => h
  | it :: rest, s, fin, h => by
    rw [processLines]
    split
    · exact h
    · exact turnInv_processLines base rest _ _ (turnInv_lineStep base s fin it h)

theorem turnInv_runStream (base : List Message) :
    ∀ (chunks : List (List SItem)) (s : TurnState), TurnInv base s →
      TurnInv base (runStream s chunks)
  | [], s, h => h
  | chunk :: rest, s, h => by
    rw [runStream]
    split
    · exact turnInv_processLines base chunk s false h
    · exact turnInv_runStream base rest _ (turnInv_processLines base chunk s false h)

/-! ## Lemmas: second variant loop -/

theorem v2_done_skip (capRe : String) (s : V2State) (it : SItem)
    (hd : isDoneLine it.1 = true) : v2ProcessLine capRe s it = s := by
  simp [v2ProcessLine, hd]

theorem v2_rItem_step (capRe : String) (s : V2State) (r : String) :
    v2ProcessLine capRe s (rItem r) = { s with currRe := s.currRe ++ r } := by
  simp [v2ProcessLine, rItem, plainRaw_not_done]

theorem v2_rItems (capRe : String) :
    ∀ (rs : List String) (s : V2State) (t : List SItem),
      v2ProcessLines capRe s (rs.map rItem ++ t) =
        v2ProcessLines capRe { s with currRe := s.currRe ++ strConcat rs } t
  | [], s, t => by simp [strConcat]
  | r :: rs, s, t => by
    rw [List.map_cons, List.cons_append, v2ProcessLines, v2_rItem_step,
      v2_rItems capRe rs _ t]
    simp [strConcat, String.append_assoc]

theorem v2_finalize_noAnswer (capRe capResp : String) (s : V2State)
    (hi : s.reasoningMessageIndex = -1) :
    v2Finalize capRe capResp s =
      { s with messages := s.messages ++ [v2NoAnswerMsg capResp], currResp := "" } := by
  simp [v2Finalize, hi]

/-! ## Lemmas: punctuation squeezing -/

/-- No two adjacent characters of `l` both equal `c`. -/
abbrev NoTwo (c : Char) (l : List Char) : Prop :=
  l.Chain' (fun a b => ¬(a = c ∧ b = c))

theorem squeeze_head (c x : Char) : ∀ (l : List Char), (squeeze c (x :: l)).head? = some x
  | [] => rfl
  | y :: r => by
    rw [squeeze]
    split
    · next h =>
      rw [squeeze_head c y r, h.1, h.2]
    · rfl

theorem squeeze_head_eq (c x : Char) (l : List Char) :
    ∀ y ∈ (squeeze c (x :: l)).head?, y = x := by
  rw [squeeze_head]
  intro y hy
  exact (Option.mem_some_iff.mp hy).symm

theorem squeeze_notwo (c : Char) : ∀ l, NoTwo c (squeeze c l)
  | [] => by simp [squeeze]
  | [a] => by simp [squeeze]
  | a :: b :: r => by
    rw [squeeze]
    split
    · exact squeeze_notwo c (b :: r)
    · next h =>
      refine List.chain'_cons'.mpr ⟨?_, squeeze_notwo c (b :: r)⟩
      intro y hy
      rw [squeeze_head_eq c b r y hy]
      exact h

theorem squeeze_id (c : Char) : ∀ l, NoTwo c l → squeeze c l = l
  | [], _ => rfl
  | [_], _ => rfl
  | a :: b :: r, h => by
    rw [squeeze, if_neg (List.chain'_cons.mp h).1,
      squeeze_id c (b :: r) (List.chain'_cons.mp h).2]

theorem squeeze_pres (c d : Char) : ∀ l, NoTwo d l → NoTwo d (squeeze c l)
  | [], _ => by simp [squeeze]
  | [a], _ => by simp [squeeze]
  | a :: b :: r, h => by
    have h1 : ¬(a = d ∧ b = d) := (List.chain'_cons.mp h).1
    have h2 : NoTwo d (b :: r) := (List.chain'_cons.mp h).2
    rw [squeeze]
    split
    · exact squeeze_pres c d (b :: r) h2
    · refine List.chain'_cons'.mpr ⟨?_, squeeze_pres c d (b :: r) h2⟩
      intro y hy
      rw [squeeze_head_eq c b r y hy]
      exact h1

/-! ## Lemmas: whitespace splitting -/

theorem splitWSGo_sound :
    ∀ (l cur : List Char), (∀ ch ∈ cur, isWS ch = false) →
      ∀ t ∈ splitWSGo cur l,
        t ≠ [] ∧ (∀ ch ∈ t, isWS ch = false) ∧ t <:+: (cur.reverse ++ l)
  | [], cur, hcur => by
    intro t ht
    rw [splitWSGo] at ht
    split at ht
    · exact absurd ht (List.not_mem_nil t)
    · next hne =>
      have hte : t = cur.reverse := by simpa using ht
      subst hte
      refine ⟨by simpa using hne, ?_, ⟨[], [], by simp⟩⟩
      intro ch hch
      exact hcur ch (by simpa using hch)
  | c :: cs, cur, hcur => by
    intro t ht
    rw [splitWSGo] at ht
    by_cases hc : isWS c = true
    · rw [if_pos hc] at ht
      split at ht
      · next hemp =>
        have hcure : cur = [] := by simpa using hemp
        subst hcure
        have h2 := splitWSGo_sound cs [] (by simp) t ht
        refine ⟨h2.1, h2.2.1, ?_⟩
        simpa using List.infix_cons (by simpa using h2.2.2)
      · next hemp =>
        rcases List.mem_cons.mp ht with hte | hts
        · subst hte
          refine ⟨by simpa using hemp, ?_, ⟨[], c :: cs, by simp⟩⟩
          intro ch hch
          exact hcur ch (by simpa using hch)
        · have h2 := splitWSGo_sound cs [] (by simp) t hts
          refine ⟨h2.1, h2.2.1, ?_⟩
          obtain ⟨u, v, huv⟩ := h2.2.2
          simp only [List.reverse_nil, List.nil_append] at huv
          exact ⟨cur.reverse ++ c :: u, v, by simp [← huv]⟩
    · rw [if_neg hc] at ht
      have hcf : isWS c = false := by
        cases hb : isWS c
        · rfl
        · exact absurd hb hc
      have h2 := splitWSGo_sound cs (c :: cur)
        (fun ch hch => by
          rcases List.mem_cons.mp hch with h | h
          · exact h ▸ hcf
          · exact hcur ch h) t ht
      refine ⟨h2.1, h2.2.1, ?_⟩
      have := h2.2.2
      simpa [List.append_assoc] using this

theorem splitWS_sound (l : List Char) :
    ∀ t ∈ splitWS l, t ≠ [] ∧ (∀ ch ∈ t, isWS ch = false) ∧ t <:+: l := by
  intro t ht
  have := splitWSGo_sound l [] (by simp) t ht
  simpa using this

theorem splitWSGo_scan :
    ∀ (t cur rest : List Char), (∀ ch ∈ t, isWS ch = false) →
      splitWSGo cur (t ++ rest) = splitWSGo (t.reverse ++ cur) rest
  | [], cur, rest, _ => by simp
  | c :: t2, cur, rest, h => by
    have hc : isWS c = false := h c (by simp)
    rw [List.cons_append, splitWSGo, if_neg (by simp [hc]),
      splitWSGo_scan t2 (c :: cur) rest (fun ch hch => h ch (by simp [hch]))]
    simp

theorem splitWS_token_space (t rest : List Char) (hne : t ≠ [])
    (h : ∀ ch ∈ t, isWS ch = false) :
    splitWS (t ++ ' ' :: rest) = t :: splitWS rest := by
  rw [splitWS, splitWSGo_scan t [] (' ' :: rest) h, List.append_nil, splitWSGo]
  have hemp : t.reverse.isEmpty = false := by
    simp [List.isEmpty_iff, hne]
  rw [if_pos (by decide), if_neg (by simp [hemp]), List.reverse_reverse]
  rfl

theorem splitWS_single (t : List Char) (hne : t ≠ [])
    (h : ∀ ch ∈ t, isWS ch = false) : splitWS t = [t] := by
  have h1 : splitWS t = splitWSGo [] (t ++ []) := by rw [List.append_nil]; rfl
  rw [h1, splitWSGo_scan t [] [] h, List.append_nil, splitWSGo]
  have hemp : t.reverse.isEmpty = false := by
    simp [List.isEmpty_iff, hne]
  rw [if_neg (by simp [hemp]), List.reverse_reverse]

theorem splitWS_joinSp :
    ∀ ts : List (List Char),
      (∀ t ∈ ts, t ≠ [] ∧ ∀ ch ∈ t, isWS ch = false) →
      splitWS (joinSp ts) = ts
  | [], _ => rfl
  | [t], h => by
    rw [joinSp, splitWS_single t (h t (by simp)).1 (h t (by simp)).2]
  | t :: t2 :: r, h => by
    rw [joinSp, splitWS_token_space t _ (h t (by simp)).1 (h t (by simp)).2,
      splitWS_joinSp (t2 :: r) (fun x hx => h x (by simp [hx]))]

/-! ## Lemmas: consecutive deduplication -/

theorem dedupe_head_eq {α : Type} [DecidableEq α] (x : α) :
    ∀ (l : List α), ∀ y ∈ (dedupe (x :: l)).head?, y = x
  | [] => by
    intro y hy
    exact (Option.mem_some_iff.mp hy).symm
  | b :: r => by
    intro y hy
    rw [dedupe] at hy
    split at hy
    · next hxb =>
      rw [dedupe_head_eq b r y hy, hxb]
    · exact (Option.mem_some_iff.mp hy).symm

theorem dedupe_chain {α : Type} [DecidableEq α] :
    ∀ l : List α, (dedupe l).Chain' (fun a b => ¬ a = b)
  | [] => by simp [dedupe]
  | [a] => by simp [dedupe]
  | a :: b :: r => by
    rw [dedupe]
    split
    · exact dedupe_chain (b :: r)
    · next hab =>
      refine List.chain'_cons'.mpr ⟨?_, dedupe_chain (b :: r)⟩
      intro y hy he
      exact hab (he.trans (dedupe_head_eq b r y hy))

theorem dedupe_id {α : Type} [DecidableEq α] :
    ∀ l : List α, l.Chain' (fun a b => ¬ a = b) → dedupe l = l
  | [], _ => rfl
  | [_], _ => rfl
  | a :: b :: r, h => by
    rw [dedupe, if_neg (List.chain'_cons.mp h).1,
      dedupe_id (b :: r) (List.chain'_cons.mp h).2]

theorem dedupe_sublist {α : Type} [DecidableEq α] : ∀ l : List α, List.Sublist (dedupe l) l
  | [] => by simp [dedupe]
  | [a] => by simp [dedupe]
  | a :: b :: r => by
    rw [dedupe]
    split
    · exact (dedupe_sublist (b :: r)).cons a
    · exact (dedupe_sublist (b :: r)).cons₂ a

/-! ## Lemmas: suffix fusion -/

/-- One token is a string suffix of the other: the relation decided by
`last.endsWith(t) || t.endsWith(last)` in the source (line 48). -/
abbrev SufRel (a b : List Char) : Prop := a <:+ b ∨ b <:+ a

theorem sufRel_symm {a b : List Char} (h : SufRel a b) : SufRel b a := h.symm

theorem sufRel_bool (t last : List Char) :
    (t.isSuffixOf last || last.isSuffixOf t) = true ↔ SufRel t last := by
  simp [SufRel]

theorem fuseGo_cons (t last : List Char) (ts rest : List (List Char)) :
    fuseGo (last :: rest) (t :: ts) =
      if t.isSuffixOf last || last.isSuffixOf t then
        if t.length > last.length then fuseGo (t :: rest) ts else fuseGo (last :: rest) ts
      else fuseGo (t :: last :: rest) ts := rfl

theorem chain_replace {t last : List Char} {rest : List (List Char)}
    (h : (last :: rest).Chain' (fun a b => ¬ SufRel a b))
    (hrel : SufRel t last) (hlen : last.length < t.length) :
    (t :: rest).Chain' (fun a b => ¬ SufRel a b) := by
  have hlt : last <:+ t := by
    cases hrel with
    | inl h1 =>
      have := h1.length_le
      omega
    | inr h2 => exact h2
  cases rest with
  | nil => simp
  | cons b r =>
    have h1 := (List.chain'_cons.mp h).1
    have h2 := (List.chain'_cons.mp h).2
    refine List.chain'_cons.mpr ⟨?_, h2⟩
    intro hrel2
    cases hrel2 with
    | inl htb => exact h1 (Or.inl (hlt.trans htb))
    | inr hbt => exact h1 (sufRel_symm (List.suffix_or_suffix_of_suffix hbt hlt))

theorem fuseGo_chain :
    ∀ (ts acc : List (List Char)),
      acc.Chain' (fun a b => ¬ SufRel a b) →
      (fuseGo acc ts).Chain' (fun a b => ¬ SufRel a b)
  | [], acc, h => by
    rw [fuseGo, List.chain'_reverse]
    exact h.imp (fun _ _ hab hr => hab (sufRel_symm hr))
  | t :: ts, acc, h => by
    cases acc with
    | nil => exact fuseGo_chain ts [t] (by simp)
    | cons last rest =>
      rw [fuseGo_cons]
      split
      · next hrel =>
        split
        · next hlen =>
          exact fuseGo_chain ts (t :: rest)
            (chain_replace h ((sufRel_bool t last).mp hrel) hlen)
        · exact fuseGo_chain ts (last :: rest) h
      · next hrel =>
        exact fuseGo_chain ts (t :: last :: rest)
          (List.chain'_cons.mpr ⟨fun hr => hrel ((sufRel_bool t last).mpr hr), h⟩)

theorem fuseGo_append :
    ∀ (ts acc : List (List Char)),
      ts.Chain' (fun a b => ¬ SufRel a b) →
      (∀ a, acc.head? = some a → ∀ b, ts.head? = some b → ¬ SufRel b a) →
      fuseGo acc ts = acc.reverse ++ ts
  | [], acc, _, _ => by simp [fuseGo]
  | t :: ts, acc, hts, hlink => by
    cases acc with
    | nil =>
      have h2 : fuseGo [t] ts = [t].reverse ++ ts := by
        refine fuseGo_append ts [t] hts.tail ?_
        intro a ha b hb
        have hat : t = a := by simpa using ha
        subst hat
        intro hr
        exact (List.chain'_cons'.mp hts).1 b hb (sufRel_symm hr)
      simpa using h2
    | cons last rest =>
      have hnr : ¬ SufRel t last := hlink last rfl t rfl
      rw [fuseGo_cons, if_neg (fun hb => hnr ((sufRel_bool t last).mp hb))]
      have h2 : fuseGo (t :: last :: rest) ts = (t :: last :: rest).reverse ++ ts := by
        refine fuseGo_append ts (t :: last :: rest) hts.tail ?_
        intro a ha b hb
        have hat : t = a := by simpa using ha
        subst hat
        intro hr
        exact (List.chain'_cons'.mp hts).1 b hb (sufRel_symm hr)
      rw [h2]
      simp

theorem fuse_chain (ts : List (List Char)) :
    (fuse ts).Chain' (fun a b => ¬ SufRel a b) := fuseGo_chain ts [] (by simp)

theorem fuse_id (ts : List (List Char))
    (h : ts.Chain' (fun a b => ¬ SufRel a b)) : fuse ts = ts := by
  have h2 := fuseGo_append ts [] h (by intro a ha; exact absurd ha (by simp))
  simpa using h2

theorem fuseGo_mem :
    ∀ (ts acc : List (List Char)) (x : List Char),
      x ∈ fuseGo acc ts → x ∈ acc ∨ x ∈ ts
  | [], acc, x, hx => by
    rw [fuseGo] at hx
    exact Or.inl (by simpa using hx)
  | t :: ts, acc, x, hx => by
    cases acc with
    | nil =>
      rcases fuseGo_mem ts [t] x hx with h | h
      · exact Or.inr (by simpa using Or.inl (by simpa using h))
      · exact Or.inr (List.mem_cons_of_mem t h)
    | cons last rest =>
      rw [fuseGo_cons] at hx
      split at hx
      · split at hx
        · rcases fuseGo_mem ts (t :: rest) x hx with h | h
          · rcases List.mem_cons.mp h with h1 | h1
            · exact Or.inr (h1 ▸ List.mem_cons_self t ts)
            · exact Or.inl (List.mem_cons_of_mem last h1)
          · exact Or.inr (List.mem_cons_of_mem t h)
        · rcases fuseGo_mem ts (last :: rest) x hx with h | h
          · exact Or.inl h
          · exact Or.inr (List.mem_cons_of_mem t h)
      · rcases fuseGo_mem ts (t :: last :: rest) x hx with h | h
        · rcases List.mem_cons.mp h with h1 | h1
          · exact Or.inr (h1 ▸ List.mem_cons_self t ts)
          · exact Or.inl h1
        · exact Or.inr (List.mem_cons_of_mem t h)

theorem fuse_mem (ts : List (List Char)) (x : List Char) (hx : x ∈ fuse ts) :
    x ∈ ts := by
  rcases fuseGo_mem ts [] x hx with h | h
  · exact absurd h (by simp)
  · exact h

/-! ## Lemmas: joining and the cleaner as a whole -/

theorem notwo_joinSp (c : Char) (hc : c ≠ ' ') :
    ∀ ts : List (List Char), (∀ t ∈ ts, NoTwo c t) → NoTwo c (joinSp ts)
  | [], _ => by simp [joinSp]
  | [t], h => by
    rw [joinSp]
    exact h t (by simp)
  | t :: t2 :: r, h => by
    rw [joinSp]
    refine List.chain'_append.mpr ⟨h t (by simp), ?_, ?_⟩
    · refine List.chain'_cons'.mpr
        ⟨?_, notwo_joinSp c hc (t2 :: r) (fun x hx => h x (by simp [hx]))⟩
      intro y _ hp
      exact hc hp.1.symm
    · intro x _ y hy hp
      have hys : ' ' = y := by simpa using hy
      exact hc ((hys.trans hp.2).symm)

/-- The token list produced by one pass of the cleaner: splitting the
output recovers it, its tokens are nonempty and whitespace-free, and no
two adjacent tokens are suffix-related. -/
theorem cleanL_tokens (l : List Char) :
    splitWS (cleanL l) = fuse (dedupe (splitWS (squeeze '?' (squeeze '.' l)))) ∧
    (∀ t ∈ fuse (dedupe (splitWS (squeeze '?' (squeeze '.' l)))),
      t ≠ [] ∧ ∀ ch ∈ t, isWS ch = false) ∧
    (fuse (dedupe (splitWS (squeeze '?' (squeeze '.' l))))).Chain'
      (fun a b => ¬ SufRel a b) := by
  have hmemTok : ∀ t ∈ fuse (dedupe (splitWS (squeeze '?' (squeeze '.' l)))),
      t ∈ splitWS (squeeze '?' (squeeze '.' l)) :=
    fun t ht => (dedupe_sublist _).subset (fuse_mem _ t ht)
  have hprops : ∀ t ∈ fuse (dedupe (splitWS (squeeze '?' (squeeze '.' l)))),
      t ≠ [] ∧ ∀ ch ∈ t, isWS ch = false :=
    fun t ht => ⟨(splitWS_sound _ t (hmemTok t ht)).1,
      (splitWS_sound _ t (hmemTok t ht)).2.1⟩
  exact ⟨splitWS_joinSp _ hprops, hprops, fuse_chain _⟩

/-! ## Claim theorems -/

/-- C1.  The claim states `clean("resolu resolução") = "resolução"`, as do
the spec and the comment in the source (lines 40-42).  The code disagrees
with its own documentation: the fusion test `last.endsWith(t) ||
t.endsWith(last)` is a suffix comparison, and `"resolu"` is a prefix, not
a suffix, of `"resolução"`, so the pair is not fused and the input comes
back unchanged.  On a genuine suffix pair such as `"ução resolução"` the
fusion does keep the longer token. -/
theorem claim1_fusion_requires_suffix :
    cleanReasoningChain srcIn = srcIn ∧
    cleanReasoningChain srcIn ≠ srcLonger ∧
    cleanReasoningChain srcSuf = srcLonger := by
  refine ⟨by decide, by decide, by decide⟩

/-- C2.  For a stream of reasoning-only deltas, then content deltas, then
a `finish_reason` event, then the sentinel, one turn creates exactly one
answer message: the final conversation appends to the user message a
single non-user message whose content is the concatenation of the content
deltas in order and whose reasoning is the cleaner applied to the
concatenation of the reasoning deltas in order, and the count of non-user
messages grows by exactly one. -/
theorem claim2_stream_assembly (msgs : List Message) (prompt : String)
    (rs cs : List String) (hcs : cs ≠ []) :
    (handleSendOk msgs prompt [rs.map rItem ++ cs.map cItem ++ [finItem, doneItem]]).messages =
      msgs ++ [userMsg prompt,
        { content := strConcat cs, isUser := false,
          reasoning := some (cleanReasoningChain (strConcat rs)),
          isComplete := some true, showReasoning := some true }] ∧
    ((handleSendOk msgs prompt
        [rs.map rItem ++ cs.map cItem ++ [finItem, doneItem]]).messages.filter
        (fun m => !m.isUser)).length =
      (msgs.filter (fun m => !m.isUser)).length + 1 := by
  obtain ⟨c, cs', rfl⟩ : ∃ a as, cs = a :: as := by
    cases cs with
    | nil => exact absurd rfl hcs
    | cons a as => exact ⟨a, as, rfl⟩
  have hchunk : processLines (initTurn msgs prompt) false
      (rs.map rItem ++ (c :: cs').map cItem ++ [finItem, doneItem]) =
      (⟨(msgs ++ [userMsg prompt]) ++ [{ ansEmpty with content := strConcat (c :: cs') }],
        Int.ofNat (msgs ++ [userMsg prompt]).length, true, strConcat rs, true⟩, true) := by
    rw [List.append_assoc, processLines_rItems rs _ false _]
    have e1 : ({ initTurn msgs prompt with
        reasoningAcc := (initTurn msgs prompt).reasoningAcc ++ strConcat rs } : TurnState)
        = ⟨msgs ++ [userMsg prompt], -1, false, strConcat rs, true⟩ := by
      simp [initTurn]
    rw [e1, List.map_cons, List.cons_append,
      processLines_cons_plain _ _ _ _ (by exact plainRaw_not_done),
      lineStep_cItem_new _ _ _ rfl]
    have e2 : appendContentToFinalMessage c
        { createFinalMessage
            (⟨msgs ++ [userMsg prompt], -1, false, strConcat rs, true⟩ : TurnState) with
          alreadyCreated := true } =
        ⟨(msgs ++ [userMsg prompt]) ++ [{ ansEmpty with content := ansEmpty.content ++ c }],
          Int.ofNat (msgs ++ [userMsg prompt]).length, true, strConcat rs, true⟩ := by
      rw [appendContent_at (msgs ++ [userMsg prompt]) ansEmpty _ c
        (by simp [createFinalMessage]) (by simp [createFinalMessage])]
      simp [createFinalMessage]
    rw [e2, processLines_cItems cs' (msgs ++ [userMsg prompt])
      { ansEmpty with content := ansEmpty.content ++ c } _ false _ rfl rfl rfl]
    rw [processLines_cons_plain _ _ _ _ (by exact plainRaw_not_done), lineStep_finItem,
      processLines_done _ _ doneItem [] (by decide)]
    simp [ansEmpty, strConcat, String.append_assoc]
  have hrun : runStream (initTurn msgs prompt)
      [rs.map rItem ++ (c :: cs').map cItem ++ [finItem, doneItem]] =
      ⟨(msgs ++ [userMsg prompt]) ++ [{ ansEmpty with content := strConcat (c :: cs') }],
        Int.ofNat (msgs ++ [userMsg prompt]).length, true, strConcat rs, true⟩ := by
    simp only [runStream]
    rw [hchunk]
    simp
  have hfin : finalizeMessage
      (⟨(msgs ++ [userMsg prompt]) ++ [{ ansEmpty with content := strConcat (c :: cs') }],
        Int.ofNat (msgs ++ [userMsg prompt]).length, true, strConcat rs, true⟩ : TurnState) =
      ⟨(msgs ++ [userMsg prompt]) ++
          [{ content := strConcat (c :: cs'), isUser := false,
             reasoning := some (cleanReasoningChain (strConcat rs)),
             isComplete := some true, showReasoning := some true }],
        Int.ofNat (msgs ++ [userMsg prompt]).length, true, "", true⟩ := by
    rw [finalize_at (msgs ++ [userMsg prompt])
      { ansEmpty with content := strConcat (c :: cs') } _ rfl rfl]
    simp [ansEmpty]
  have hmain : (handleSendOk msgs prompt
      [rs.map rItem ++ (c :: cs').map cItem ++ [finItem, doneItem]]).messages =
      msgs ++ [userMsg prompt,
        { content := strConcat (c :: cs'), isUser := false,
          reasoning := some (cleanReasoningChain (strConcat rs)),
          isComplete := some true, showReasoning := some true }] := by
    simp only [handleSendOk]
    rw [hrun, hfin]
    simp
  refine ⟨hmain, ?_⟩
  rw [hmain]
  simp [List.filter_append, userMsg]

theorem claim2_witness :
    (handleSendOk [] "p"
        [["r1", "r2"].map rItem ++ ["a", "b"].map cItem ++ [finItem, doneItem]]).messages =
      [] ++ [userMsg "p",
        { content := strConcat ["a", "b"], isUser := false,
          reasoning := some (cleanReasoningChain (strConcat ["r1", "r2"])),
          isComplete := some true, showReasoning := some true }] ∧
    ((handleSendOk [] "p"
        [["r1", "r2"].map rItem ++ ["a", "b"].map cItem ++ [finItem, doneItem]]).messages.filter
        (fun m => !m.isUser)).length =
      (([] : List Message).filter (fun m => !m.isUser)).length + 1 :=
  claim2_stream_assembly [] "p" ["r1", "r2"] ["a", "b"] (by decide)

/-- C3 (amended).  In the primary variant a line trimming to
`data: [DONE]` ends processing: the loop returns at once with the
`finished` flag set, independently of the parse outcome of that line and
of everything after it in the chunk, and the later chunks of the stream
are never consumed.  In the second variant the sentinel line is likewise
never parsed, but it is skipped with `continue`: processing of the
remaining lines carries on. -/
theorem claim3_done_sentinel_amended :
    (∀ (s : TurnState) (fin : Bool) (d : SItem) (post : List SItem),
      isDoneLine d.1 = true → processLines s fin (d :: post) = (s, true)) ∧
    (∀ (s : TurnState) (d : SItem) (pre post : List SItem) (rest : List (List SItem)),
      isDoneLine d.1 = true → (∀ x ∈ pre, isDoneLine x.1 = false) →
      runStream s ((pre ++ d :: post) :: rest) = (processLines s false pre).1) ∧
    (∀ (capRe : String) (s : V2State) (it : SItem), isDoneLine it.1 = true →
      v2ProcessLine capRe s it = s) :=
  ⟨fun s fin d post hd => processLines_done s fin d post hd,
   fun s d pre post rest hd hpre => runStream_done d hd pre hpre s post rest,
   fun c s it hd => v2_done_skip c s it hd⟩

theorem claim3_witness :
    processLines (initTurn [] "q") false (doneItem :: [rItem "a"]) = (initTurn [] "q", true) ∧
    runStream (initTurn [] "q") [[rItem "a"] ++ doneItem :: [rItem "b"], [rItem "c"]] =
      (processLines (initTurn [] "q") false [rItem "a"]).1 ∧
    v2ProcessLine "" (v2Init [] "q") doneItem = v2Init [] "q" :=
  ⟨claim3_done_sentinel_amended.1 (initTurn [] "q") false doneItem [rItem "a"] (by decide),
   claim3_done_sentinel_amended.2.1 (initTurn [] "q") doneItem [rItem "a"] [rItem "b"]
     [[rItem "c"]] (by decide) (by decide),
   claim3_done_sentinel_amended.2.2 "" (v2Init [] "q") doneItem (by decide)⟩

/-- C3 counterexample.  The claim asserts that a sentinel line terminates
stream processing with no further lines consumed.  In the second variant
(`continue` on line 340) processing carries on: a reasoning delta placed
after the sentinel is still accumulated, while without it nothing is. -/
theorem claim3_counterexample :
    (v2ProcessLines "" (v2Init [] "q") [doneItem, rItem "r"]).currRe = "r" ∧
    (v2ProcessLines "" (v2Init [] "q") [doneItem]).currRe = "" := by
  decide

/-- C5.  During a turn the conversation holds at most one open answer
message: the invariant `TurnInv` — before creation the turn has added no
message beyond the user message and the recorded index is `-1`; after
creation the turn has added exactly one message, which is non-user and
incomplete, at the recorded index — holds at the start of the turn and is
preserved by every line and by the whole reader loop, so every content
delta after the first lands on that same recorded message. -/
theorem claim5_one_open_answer (msgs : List Message) (prompt : String) :
    TurnInv (msgs ++ [userMsg prompt]) (initTurn msgs prompt) ∧
    (∀ (items : List SItem) (s : TurnState) (fin : Bool),
      TurnInv (msgs ++ [userMsg prompt]) s →
      TurnInv (msgs ++ [userMsg prompt]) (processLines s fin items).1) ∧
    (∀ (chunks : List (List SItem)) (s : TurnState),
      TurnInv (msgs ++ [userMsg prompt]) s →
      TurnInv (msgs ++ [userMsg prompt]) (runStream s chunks)) :=
  ⟨turnInv_init msgs prompt,
   fun items s fin h => turnInv_processLines _ items s fin h,
   fun chunks s h => turnInv_runStream _ chunks s h⟩

theorem claim5_witness :
    TurnInv ([] ++ [userMsg "q"]) (runStream (initTurn [] "q") [[rItem "r", cItem "a"]]) :=
  (claim5_one_open_answer [] "q").2.2 [[rItem "r", cItem "a"]] (initTurn [] "q")
    (claim5_one_open_answer [] "q").1

/-- C6.  A line whose JSON parse throws is caught and skipped: processing
a chunk with the malformed line inserted gives exactly the result of
processing the chunk without it, both at chunk level and over the whole
stream, so every later valid delta is accumulated as without it. -/
theorem claim6_malformed_line_skipped (s : TurnState) (fin : Bool)
    (pre post : List SItem) (m : SItem) (hd : isDoneLine m.1 = false)
    (hm : m.2 = none) :
    processLines s fin (pre ++ m :: post) = processLines s fin (pre ++ post) ∧
    ∀ rest : List (List SItem),
      runStream s ((pre ++ m :: post) :: rest) = runStream s ((pre ++ post) :: rest) := by
  refine ⟨processLines_malformed m hd hm pre s fin post, fun rest => ?_⟩
  rw [runStream, runStream, processLines_malformed m hd hm pre s false post]

theorem claim6_witness :
    processLines (initTurn [] "q") false
        ([rItem "a"] ++ (plainRaw, (none : Option EventJson)) :: [rItem "b"]) =
      processLines (initTurn [] "q") false ([rItem "a"] ++ [rItem "b"]) :=
  (claim6_malformed_line_skipped (initTurn [] "q") false [rItem "a"] [rItem "b"]
    (plainRaw, (none : Option EventJson)) (by decide) rfl).1

/-- C7.  A transport failure (request rejected, non-2xx status, or a read
that throws after some chunks) takes the catch path: the conversation
gains exactly one new message relative to the pre-failure state, a
non-user message whose content starts with the error lead, whatever
in-progress messages exist are left untouched and unfinalized, and the
loading flag ends false.  The last conjunct instantiates the rejected
request, where the whole turn adds only the user message and the error
message. -/
theorem claim7_transport_failure (msgs : List Message) (prompt e : String)
    (chunks : List (List SItem)) :
    (handleSendFail msgs prompt chunks e).messages =
      (runStream (initTurn msgs prompt) chunks).messages ++ [errMsg e] ∧
    (handleSendFail msgs prompt chunks e).messages.length =
      (runStream (initTurn msgs prompt) chunks).messages.length + 1 ∧
    (errMsg e).isUser = false ∧
    errorLead.data <+: (errMsg e).content.data ∧
    (handleSendFail msgs prompt chunks e).isLoading = false ∧
    (handleSendFail msgs prompt [] e).messages = msgs ++ [userMsg prompt, errMsg e] := by
  refine ⟨rfl, by simp [handleSendFail], rfl, ⟨e.data, rfl⟩, rfl, ?_⟩
  simp [handleSendFail, runStream, initTurn]

/-- C8 (amended).  On a reasoning-only stream ended by the sentinel, the
primary variant creates no answer message — the conversation gains only
the user message — and the accumulated reasoning is discarded (the
accumulator is cleared by finalization, with nowhere to store its cleaned
form).  The second variant additionally pushes a completed non-user
message with empty content, no stored reasoning and `showReasoning`
false, so there the conversation does not gain only the user message. -/
theorem claim8_reasoning_only_amended (msgs : List Message) (prompt : String)
    (rs : List String) :
    (handleSendOk msgs prompt [rs.map rItem ++ [doneItem]]).messages =
      msgs ++ [userMsg prompt] ∧
    (handleSendOk msgs prompt [rs.map rItem ++ [doneItem]]).reasoningAcc = "" ∧
    (handleSendOk msgs prompt [rs.map rItem ++ [doneItem]]).answerIdx = -1 ∧
    (v2Run "" "" msgs prompt (rs.map rItem ++ [doneItem])).messages =
      msgs ++ [userMsg prompt, v2NoAnswerMsg ""] := by
  have hp : processLines (initTurn msgs prompt) false (rs.map rItem ++ [doneItem]) =
      (⟨msgs ++ [userMsg prompt], -1, false, strConcat rs, true⟩, true) := by
    rw [processLines_rItems rs _ false [doneItem],
      processLines_done _ false doneItem [] (by decide)]
    simp [initTurn]
  have h1 : runStream (initTurn msgs prompt) [rs.map rItem ++ [doneItem]] =
      ⟨msgs ++ [userMsg prompt], -1, false, strConcat rs, true⟩ := by
    simp [runStream, hp]
  have h3 : finalizeMessage ⟨msgs ++ [userMsg prompt], -1, false, strConcat rs, true⟩ =
      ⟨msgs ++ [userMsg prompt], -1, false, "", true⟩ := by
    rw [finalize_noAnswer _ rfl]
  have h2 : v2ProcessLines "" (v2Init msgs prompt) (rs.map rItem ++ [doneItem]) =
      ⟨msgs ++ [userMsg prompt], strConcat rs, "", false, -1⟩ := by
    rw [v2_rItems "" rs _ [doneItem], v2ProcessLines,
      v2_done_skip "" _ doneItem (by decide), v2ProcessLines]
    simp [v2Init]
  have h4 : v2Finalize "" "" ⟨msgs ++ [userMsg prompt], strConcat rs, "", false, -1⟩ =
      ⟨msgs ++ [userMsg prompt] ++ [v2NoAnswerMsg ""], strConcat rs, "", false, -1⟩ := by
    rw [v2_finalize_noAnswer "" "" _ rfl]
  refine ⟨?_, ?_, ?_, ?_⟩
  · simp only [handleSendOk]
    rw [h1, h3]
  · simp only [handleSendOk]
    rw [h1, h3]
  · simp only [handleSendOk]
    rw [h1, h3]
  · simp only [v2Run]
    rw [h2, h4]
    simp

/-- C8 counterexample.  The claim asserts the conversation gains only the
user message.  In the second variant the final update pushes a completed
non-user message with empty content (lines 399-408), so the list does not
equal the user message alone. -/
theorem claim8_counterexample :
    (v2Run "" "" [] "q" [rItem "r", doneItem]).messages =
      [userMsg "q", v2NoAnswerMsg ""] ∧
    (v2Run "" "" [] "q" [rItem "r", doneItem]).messages ≠ [userMsg "q"] := by
  decide

/-- C10.  The stripping step is `replace` with a plain-string pattern: it
removes exactly the first occurrence of `"data: "` wherever that occurs in
the line, a line without any occurrence is passed to the parser unchanged
(first conjunct), a second occurrence survives (second conjunct), a
mid-line occurrence is the one removed (third conjunct), and a non-sentinel
line is always processed — handed to the parse outcome — never skipped for
lacking the pattern (fourth conjunct). -/
theorem claim10_strip_first_occurrence :
    (∀ l : List Char, ¬ dataPat <:+: l → stripData l = l) ∧
    stripData dblOccur = dblOccurOut ∧
    stripData midOccur = midOccurOut ∧
    (∀ (s : TurnState) (fin : Bool) (it : SItem) (rest : List SItem),
      isDoneLine it.1 = false →
      processLines s fin (it :: rest) =
        processLines (lineStep s fin it).1 (lineStep s fin it).2 rest) :=
  ⟨fun l h => replaceFirst_no_occur dataPat [] l h, by decide, by decide,
   fun s fin it rest h => processLines_cons_plain s fin it rest h⟩

theorem claim10_witness :
    stripData plainRaw = plainRaw ∧
    processLines (initTurn [] "q") false (rItem "a" :: []) =
      processLines (lineStep (initTurn [] "q") false (rItem "a")).1
        (lineStep (initTurn [] "q") false (rItem "a")).2 [] :=
  ⟨claim10_strip_first_occurrence.1 plainRaw (by decide),
   claim10_strip_first_occurrence.2.2.2 (initTurn [] "q") false (rItem "a") [] (by decide)⟩

/-- C4.  The cleaner is idempotent: a second pass changes nothing.  The
output of one pass is a single-space join of nonempty whitespace-free
tokens none of which contains a doubled dot or question mark (tokens are
contiguous fragments of the already-squeezed text), so the punctuation
collapse and the split of the second pass reproduce the token list
exactly; no two adjacent tokens are equal or suffix-related, so the
deduplication and fusion passes leave it unchanged. -/
theorem claim4_clean_idempotent (s : String) :
    cleanReasoningChain (cleanReasoningChain s) = cleanReasoningChain s := by
  have main : cleanL (cleanL s.data) = cleanL s.data := by
    obtain ⟨hsplit, _, hchain⟩ := cleanL_tokens s.data
    have hnd : NoTwo '.' (squeeze '?' (squeeze '.' s.data)) :=
      squeeze_pres '?' '.' _ (squeeze_notwo '.' s.data)
    have hnq : NoTwo '?' (squeeze '?' (squeeze '.' s.data)) := squeeze_notwo '?' _
    have hmemTok : ∀ t ∈ fuse (dedupe (splitWS (squeeze '?' (squeeze '.' s.data)))),
        t ∈ splitWS (squeeze '?' (squeeze '.' s.data)) :=
      fun t ht => (dedupe_sublist _).subset (fuse_mem _ t ht)
    have hjd : NoTwo '.' (cleanL s.data) :=
      notwo_joinSp '.' (by decide) _
        (fun t ht => hnd.infix (splitWS_sound _ t (hmemTok t ht)).2.2)
    have hjq : NoTwo '?' (cleanL s.data) :=
      notwo_joinSp '?' (by decide) _
        (fun t ht => hnq.infix (splitWS_sound _ t (hmemTok t ht)).2.2)
    have e1 : squeeze '.' (cleanL s.data) = cleanL s.data := squeeze_id '.' _ hjd
    have e2 : squeeze '?' (cleanL s.data) = cleanL s.data := squeeze_id '?' _ hjq
    calc cleanL (cleanL s.data)
        = joinSp (fuse (dedupe (splitWS (squeeze '?' (squeeze '.' (cleanL s.data)))))) :=
          rfl
      _ = joinSp (fuse (dedupe (splitWS (cleanL s.data)))) := by rw [e1, e2]
      _ = joinSp (fuse (dedupe (fuse (dedupe (splitWS (squeeze '?' (squeeze '.' s.data)))))))
          := by rw [hsplit]
      _ = joinSp (fuse (dedupe (splitWS (squeeze '?' (squeeze '.' s.data))))) := by
          rw [dedupe_id _ (hchain.imp (fun a b hab heq =>
            hab (by rw [heq]; exact Or.inl (List.suffix_refl b)))), fuse_id _ hchain]
      _ = cleanL s.data := rfl
  exact congrArg String.mk main

/-- C9.  The output of the cleaner is space-normalized and token-level
duplicate-free: splitting it on whitespace yields only nonempty tokens
free of whitespace, no two adjacent tokens are equal, and rejoining the
tokens with single spaces reproduces the output verbatim (so there is no
leading or trailing whitespace and every separator is exactly one
space). -/
theorem claim9_clean_normalized (s : String) :
    (∀ t ∈ splitWS (cleanReasoningChain s).data,
      t ≠ [] ∧ ∀ ch ∈ t, isWS ch = false) ∧
    (splitWS (cleanReasoningChain s).data).Chain' (fun a b => ¬ a = b) ∧
    joinSp (splitWS (cleanReasoningChain s).data) = (cleanReasoningChain s).data := by
  obtain ⟨hsplit, hprops, hchain⟩ := cleanL_tokens s.data
  have hdata : (cleanReasoningChain s).data = cleanL s.data := rfl
  refine ⟨?_, ?_, ?_⟩
  · rw [hdata, hsplit]
    exact hprops
  · rw [hdata, hsplit]
    exact hchain.imp (fun a b hab heq =>
      hab (by rw [heq]; exact Or.inl (List.suffix_refl b)))
  · rw [hdata, hsplit]
    rfl

theorem claim9_witness :
    (∀ t ∈ splitWS (cleanReasoningChain srcIn).data,
      t ≠ [] ∧ ∀ ch ∈ t, isWS ch = false) ∧
    (splitWS (cleanReasoningChain srcIn).data).Chain' (fun a b => ¬ a = b) ∧
    joinSp (splitWS (cleanReasoningChain srcIn).data) =
      (cleanReasoningChain srcIn).data :=
  claim9_clean_normalized srcIn
